import Mathlib

/-!
Path utilities of libcommon (`src/libcommon/filesystem.cpp`).

A shallow embedding of `common::fs::Mkdir`, `GetPath`, `GetFilename` and
`MakePath`, together with the part of `std::wstring` they use.

* A `std::wstring` is a list of characters.  The functions only ever compare a
  character with `/` and `\`, so the width of `wchar_t` plays no role.
* `std::wstring::npos` is `none`: an index into a string is never `npos`.
* A C++ exception is the `error` side of `Except Exception`.
* The Win32 calls `CreateDirectoryW` / `GetLastError` are a parameter
  (`Win32 σ`), and so are the helpers of `string.h` (`StringLib`).
-/

set_option autoImplicit false

namespace common

/-! ## `std::wstring` -/

abbrev wchar_t := Char

abbrev wstring := List wchar_t

/-- The exceptions the embedded code can raise. -/
inductive Exception where
  | runtime_error (what : String)
  | out_of_range (what : String)
  deriving DecidableEq, Repr

namespace wstring

/-- The call `s.find_last_of(chars)`: the greatest index whose character occurs in
`chars`, `none` (for `npos`) when there is no such index. -/
def find_last_of (s chars : wstring) : Option Nat :=
  match s with
  | [] => none
  | c :: cs =>
    match find_last_of cs chars with
    | some i => some (i + 1)
    | none => if chars.contains c then some 0 else none

/-- The call `s.substr(pos, count)`; `count = none` is the default argument `npos`.
Throws `std::out_of_range` when `pos > s.size()`. -/
def substr (s : wstring) (pos : Nat) (count : Option Nat) : Except Exception wstring :=
  if pos > s.length then
    .error (.out_of_range "basic_string::substr")
  else
    match count with
    | none => .ok (s.drop pos)
    | some n => .ok ((s.drop pos).take n)

end wstring

namespace fs

/-- The delimiter set `L"/\\"` used throughout `filesystem.cpp`. -/
def separators : wstring := ['/', '\\']

/-- Embedding of `common::fs::GetPath` (filesystem.cpp, lines 64-90). -/
def GetPath (filepath : wstring) : Except Exception wstring :=
  if filepath.isEmpty then
    .ok []
  else if filepath.getLast? = some '/' ∨ filepath.getLast? = some '\\' then
    .ok filepath
  else
    match wstring.find_last_of filepath separators with
    | none => .ok []
    | some lastSlash => wstring.substr filepath 0 (some (lastSlash + 1))

/-- Embedding of `common::fs::GetFilename` (filesystem.cpp, lines 92-110). -/
def GetFilename (filepath : wstring) : Except Exception wstring :=
  if filepath.isEmpty then
    .ok []
  else
    match wstring.find_last_of filepath separators with
    | none => .ok filepath
    | some lastSlash => wstring.substr filepath (lastSlash + 1) none

/-- Embedding of `common::fs::MakePath` (filesystem.cpp, lines 112-131). -/
def MakePath (directory file : wstring) : Except Exception wstring :=
  if directory.isEmpty ∨ file.isEmpty then
    .error (.runtime_error "Invalid (missing) directory name or file name")
  else
    let result := directory
    let result :=
      if some '\\' ≠ result.getLast? ∧ some '/' ≠ result.getLast? then
        result ++ ['\\']
      else
        result
    .ok (result ++ file)

/-- A separator character: one of the two characters of `separators`. -/
def isSeparator (c : wchar_t) : Bool := c == '/' || c == '\\'

/-- The stem of the path-joining contract: `directory` with all of its trailing
separator characters removed. -/
def stripTrailingSeparators (directory : wstring) : wstring :=
  (directory.reverse.dropWhile isSeparator).reverse

/-- The `directory` without its last character when that is a separator:
at most one trailing separator is removed. -/
def dropTrailingSeparator (directory : wstring) : wstring :=
  match directory.getLast? with
  | some c => if isSeparator c then directory.dropLast else directory
  | none => directory

/-! ## The environment of `Mkdir`: Win32 and `string.h` -/

abbrev DWORD := Nat

def ERROR_SUCCESS : DWORD := 0

def ERROR_PATH_NOT_FOUND : DWORD := 3

def ERROR_ACCESS_DENIED : DWORD := 5

def ERROR_ALREADY_EXISTS : DWORD := 183

/-- What the caller of `CreateDirectoryW(target, nullptr)` can observe: the
`BOOL` it returns, the value `GetLastError()` has right after the call, and the
file system the call leaves behind. -/
structure CreateDirectoryResult (σ : Type) where
  success : Bool
  lastError : DWORD
  fs : σ

/-- The operating system as `Mkdir` sees it, over file-system states `σ`. -/
structure Win32 (σ : Type) where
  CreateDirectoryW : wstring → σ → CreateDirectoryResult σ

/-- The helpers of `string.h` that `Mkdir` calls; their code is not part of
this source tree, so they are a parameter of `Mkdir`. -/
structure StringLib where
  Tokenize : wstring → wstring → List wstring
  ToAnsi : wstring → String

/-- The extended-length prefix `L"\\\\?\\"`. -/
def extendedPrefix : wstring := ['\\', '\\', '?', '\\']

/-- The body of the `do ... while (it != dirs.end())` loop of `Mkdir`
(lines 44-54), entered with `*it = dir` and `rest` the segments after it. The
body runs once and is repeated while segments remain. Returns `target`,
`lastError` and the file system when the loop exits. -/
def Mkdir.loop {σ : Type} (os : Win32 σ) (target dir : wstring) (rest : List wstring) (fs : σ) :
    wstring × DWORD × σ :=
  let target := target ++ dir ++ ['\\']
  let r := os.CreateDirectoryW target fs
  let lastError := if r.success then ERROR_SUCCESS else r.lastError
  match rest with
  | [] => (target, lastError, r.fs)
  | next :: rest => Mkdir.loop os target next rest r.fs

/-- Embedding of `common::fs::Mkdir` (filesystem.cpp, lines 10-62): the outcome of the call
(normal return or the exception thrown) and the file system it leaves. -/
def Mkdir {σ : Type} (lib : StringLib) (os : Win32 σ) (path : wstring) (fs : σ) :
    Except Exception Unit × σ :=
  if path.isEmpty then
    (.ok (), fs)
  else
    let dirs := lib.Tokenize path separators
    if 0 = dirs.length then
      (.ok (), fs)
    else if 1 = dirs.length then
      (.ok (), fs)
    else
      match dirs with
      | first :: second :: rest =>
        let target := extendedPrefix
        let target := target ++ first ++ ['\\']
        let (target, lastError, fs) := Mkdir.loop os target second rest fs
        if ERROR_SUCCESS ≠ lastError ∧ ERROR_ALREADY_EXISTS ≠ lastError then
          (.error (.runtime_error ("Failed to create directory: " ++ lib.ToAnsi target)), fs)
        else
          (.ok (), fs)
      | _ => (.ok (), fs)

/-! ## Observing what `Mkdir` asks of the operating system -/

/-- One directory-creation attempt: the target passed to `CreateDirectoryW` and
what the call reported. -/
structure Attempt where
  target : wstring
  success : Bool
  lastError : DWORD
  deriving DecidableEq, Repr

/-- The same operating system, keeping a log of every `CreateDirectoryW` call
next to the file system. -/
def Win32.traced {σ : Type} (os : Win32 σ) : Win32 (σ × List Attempt) where
  CreateDirectoryW := fun target s =>
    let r := os.CreateDirectoryW target s.1
    ⟨r.success, r.lastError, (r.fs, s.2 ++ [⟨target, r.success, r.lastError⟩])⟩

/-- The `target` with every segment of `dirs` appended to it, each followed by
a backslash. -/
def appendSegments (target : wstring) (dirs : List wstring) : wstring :=
  target ++ (dirs.map (fun d => d ++ ['\\'])).flatten

/-- The target of the attempt for the last of `dirs`: the extended-length
prefix followed by every segment, each with a backslash after it. -/
def fullTarget (dirs : List wstring) : wstring :=
  appendSegments extendedPrefix dirs

/-- Failed calls leave a non-zero last-error code (`ERROR_SUCCESS` is not the
code of a failure). -/
def Win32.ReportsFailures {σ : Type} (os : Win32 σ) : Prop :=
  ∀ target fs, (os.CreateDirectoryW target fs).success = false →
    (os.CreateDirectoryW target fs).lastError ≠ ERROR_SUCCESS

/-- A hierarchical file system, with `present fs t` for "an entry named `t`
exists in `fs`": creating a directory at a name that exists fails with
`ERROR_ALREADY_EXISTS` and changes nothing; a successful call creates its
target; `ERROR_ALREADY_EXISTS` is only reported for a name that is there; a
failure has a non-zero code; and the parent of an entry that exists exists. -/
structure Win32.Hierarchical {σ : Type} (os : Win32 σ) (present : σ → wstring → Prop) : Prop where
  already_exists : ∀ fs t, present fs t →
    os.CreateDirectoryW t fs = ⟨false, ERROR_ALREADY_EXISTS, fs⟩
  created : ∀ fs t, (os.CreateDirectoryW t fs).success = true →
    present (os.CreateDirectoryW t fs).fs t
  reported : ∀ fs t, (os.CreateDirectoryW t fs).success = false →
    (os.CreateDirectoryW t fs).lastError = ERROR_ALREADY_EXISTS →
    present (os.CreateDirectoryW t fs).fs t
  failure_code : os.ReportsFailures
  parent : ∀ fs (t dir : wstring), t.getLast? = some '\\' →
    present fs (t ++ dir ++ ['\\']) → present fs t

/-! ## A concrete environment -/

/-- Splits `str` at every character of `delimiters`, keeping empty pieces. -/
def splitAt (str delimiters : wstring) : List wstring :=
  match str with
  | [] => [[]]
  | c :: cs =>
    if delimiters.contains c then
      [] :: splitAt cs delimiters
    else
      match splitAt cs delimiters with
      | [] => [[c]]
      | t :: ts => (c :: t) :: ts

/-- Modelled from the spec: `common::string::Tokenize` (string.h) is not in the
source tree. The spec has `Mkdir` split "the path into segments on path
separators", with zero segments for the empty path and one for `C:`; the
segments are the non-empty pieces between delimiters. -/
def Tokenize (str delimiters : wstring) : List wstring :=
  (splitAt str delimiters).filter (fun t => !t.isEmpty)

/-- Modelled from the spec: `common::string::ToAnsi` (string.h) is not in the
source tree; the narrow string has the characters of the wide one. -/
def ToAnsi (s : wstring) : String := String.mk s

/-- The `string.h` helpers as modelled above. -/
def stringLib : StringLib := ⟨Tokenize, ToAnsi⟩

/-- The character `c` with a separator replaced by the backslash: two paths
with the same image under `toBackslash` differ only in which separator
character stands at each separator position. -/
def toBackslash (c : wchar_t) : wchar_t := if isSeparator c then '\\' else c

namespace Model

/-- A file system is the list of the directories created so far, each by its
extended-length path with a trailing backslash. -/
abbrev Dirs := List wstring

/-- Directory `t` exists when it is one of the recorded directories or an
ancestor of one. -/
def isDir (fs : Dirs) (t : wstring) : Bool := fs.any (fun u => t.isPrefixOf u)

/-- The parent of `t`: `t` without its last segment. -/
def parentOf (t : wstring) : wstring :=
  (t.dropLast.reverse.dropWhile (fun c => c != '\\')).reverse

/-- Directory creation: fails with `ERROR_ALREADY_EXISTS` on a directory that
exists and with `ERROR_PATH_NOT_FOUND` when the parent is missing. -/
def CreateDirectoryW (t : wstring) (fs : Dirs) : CreateDirectoryResult Dirs :=
  if isDir fs t then
    ⟨false, ERROR_ALREADY_EXISTS, fs⟩
  else if isDir fs (parentOf t) then
    ⟨true, ERROR_SUCCESS, t :: fs⟩
  else
    ⟨false, ERROR_PATH_NOT_FOUND, fs⟩

/-- The model as an operating system. -/
def os : Win32 Dirs := ⟨CreateDirectoryW⟩

/-- An operating system that answers its calls from a script of last-error
codes, one per call (the state is the script that remains): `ERROR_SUCCESS`
for a call that succeeds, the code of the failure otherwise;
`ERROR_ACCESS_DENIED` once the script is used up. -/
def scripted : Win32 (List DWORD) where
  CreateDirectoryW := fun _ script =>
    match script with
    | [] => ⟨false, ERROR_ACCESS_DENIED, []⟩
    | code :: more => ⟨code == ERROR_SUCCESS, code, more⟩

/-- The WOW64 thread of the model: its file system redirection value, and
whether the process runs under WOW64 at all (the redirection calls fail when
it does not). -/
structure Thread where
  redirection : Nat
  isWow64 : Bool
  deriving DecidableEq, Repr

end Model

/-! ## Path redirection (`ScopedNativeFileSystem`) -/

abbrev PVOID := Nat

/-- The two Win32 calls `ScopedNativeFileSystem` makes, over thread states `σ`.
The first returns its `BOOL`, the value it stores through `OldValue` and the
state it leaves; the second takes the `OldValue` and returns its `BOOL` and the
state it leaves. -/
structure Wow64 (σ : Type) where
  Wow64DisableWow64FsRedirection : σ → Bool × PVOID × σ
  Wow64RevertWow64FsRedirection : PVOID → σ → Bool × σ

/-- The documented behaviour of the two calls, with `redirection s` the
redirection value of the thread in state `s`: a call that succeeds in disabling
redirection stores the value the thread had, and a call that succeeds in
reverting gives the thread the value it is passed. -/
structure Wow64.Lawful {σ : Type} (os : Wow64 σ) (redirection : σ → PVOID) : Prop where
  disable_saves : ∀ s, (os.Wow64DisableWow64FsRedirection s).1 = true →
    (os.Wow64DisableWow64FsRedirection s).2.1 = redirection s
  revert_restores : ∀ v s, (os.Wow64RevertWow64FsRedirection v s).1 = true →
    redirection (os.Wow64RevertWow64FsRedirection v s).2 = v

/-- Modelled from the spec: the macro `THROW_GLE_IF` of error.h is not in the
source tree. The spec has the guard fail "if the underlying OS toggle call
fails": the macro throws when `status` is the value `failure`. The error code
the exception carries is not modelled. -/
def THROW_GLE_IF (failure status : Bool) (what : String) : Except Exception Unit :=
  if status = failure then .error (.runtime_error what) else .ok ()

/-- The data member of `ScopedNativeFileSystem`. -/
structure ScopedNativeFileSystem where
  m_context : PVOID
  deriving DecidableEq, Repr

/-- The constructor `ScopedNativeFileSystem::ScopedNativeFileSystem`
(filesystem.cpp, lines 151-155): the guard, or the exception, and the thread
state after the call. -/
def ScopedNativeFileSystem.construct {σ : Type} (os : Wow64 σ) (s : σ) :
    Except Exception ScopedNativeFileSystem × σ :=
  let r := os.Wow64DisableWow64FsRedirection s
  let status := r.1
  let m_context := r.2.1
  match THROW_GLE_IF false status "Disable file system redirection" with
  | .error e => (.error e, r.2.2)
  | .ok () => (.ok ⟨m_context⟩, r.2.2)

/-- The destructor `ScopedNativeFileSystem::~ScopedNativeFileSystem`
(filesystem.cpp, lines 157-161). -/
def ScopedNativeFileSystem.destruct {σ : Type} (os : Wow64 σ) (self : ScopedNativeFileSystem)
    (s : σ) : Except Exception Unit × σ :=
  let r := os.Wow64RevertWow64FsRedirection self.m_context s
  let status := r.1
  (THROW_GLE_IF false status "Revert file system redirection", r.2)

/-- The redirection calls on the thread of the model: they fail outside WOW64
and change nothing then; disabling stores the current value and sets the value
`1`, reverting sets the value passed. -/
def Model.wow64 : Wow64 Model.Thread where
  Wow64DisableWow64FsRedirection := fun s =>
    if s.isWow64 then (true, s.redirection, ⟨1, s.isWow64⟩) else (false, 0, s)
  Wow64RevertWow64FsRedirection := fun v s =>
    if s.isWow64 then (true, ⟨v, s.isWow64⟩) else (false, s)

end fs

/-! ## `ApplicationRunner` (`src/libcommon/applicationrunner.h`) -/

namespace ApplicationRunner

/-- Modelled from the spec: the body of `ApplicationRunner::CreateCommandLine`
is not in the source tree (applicationrunner.h, line 30, declares it). The spec
has the command line "built as `"<path>" <args>` (path quoted, args appended
verbatim)". -/
def CreateCommandLine (path args : wstring) : wstring :=
  ['"'] ++ path ++ ['"'] ++ [' '] ++ args

end ApplicationRunner

end common

namespace common

/-! ## `std::wstring` lemmas -/

namespace wstring

theorem find_last_of_eq_none (s chars : wstring) (h : ∀ c ∈ s, c ∉ chars) :
    find_last_of s chars = none := by
  induction s with
  | nil => rfl
  | cons a t ih =>
    have ht : find_last_of t chars = none := ih (fun c hc => h c (List.mem_cons_of_mem _ hc))
    have ha : a ∉ chars := h a (List.mem_cons_self _ _)
    simp [find_last_of, ht, ha]

theorem find_last_of_append (pre suf chars : wstring) (c : wchar_t)
    (hc : c ∈ chars) (hsuf : ∀ x ∈ suf, x ∉ chars) :
    find_last_of (pre ++ c :: suf) chars = some pre.length := by
  induction pre with
  | nil =>
    have hs : find_last_of suf chars = none := find_last_of_eq_none suf chars hsuf
    simp [find_last_of, hs, hc]
  | cons a t ih => simp [find_last_of, ih]

end wstring

namespace fs

theorem isSeparator_iff (c : wchar_t) : isSeparator c = true ↔ c = '/' ∨ c = '\\' := by
  simp [isSeparator]

theorem mem_separators (c : wchar_t) : c ∈ separators ↔ isSeparator c = true := by
  simp [separators, isSeparator]

theorem not_mem_separators (c : wchar_t) (h : isSeparator c = false) : c ∉ separators := by
  rw [mem_separators]; simp [h]

/-- A string with a separator splits at its last separator. -/
theorem exists_last_separator (s : wstring) (h : ∃ c ∈ s, isSeparator c = true) :
    ∃ pre c suf, s = pre ++ c :: suf ∧ isSeparator c = true ∧
      ∀ x ∈ suf, isSeparator x = false := by
  induction s with
  | nil => simp at h
  | cons a t ih =>
    by_cases ht : ∃ c ∈ t, isSeparator c = true
    · obtain ⟨pre, c, suf, hs, hc, hsuf⟩ := ih ht
      exact ⟨a :: pre, c, suf, by simp [hs], hc, hsuf⟩
    · have hno : ∀ x ∈ t, isSeparator x = false := by
        intro x hx
        cases hsx : isSeparator x with
        | false => rfl
        | true => exact absurd ⟨x, hx, hsx⟩ ht
      obtain ⟨c, hc, hsep⟩ := h
      rcases List.mem_cons.mp hc with rfl | hc
      · exact ⟨[], c, t, rfl, hsep, hno⟩
      · exact absurd ⟨c, hc, hsep⟩ ht

theorem find_last_of_split (pre suf : wstring) (c : wchar_t) (hc : isSeparator c = true)
    (hsuf : ∀ x ∈ suf, isSeparator x = false) :
    wstring.find_last_of (pre ++ c :: suf) separators = some pre.length :=
  wstring.find_last_of_append pre suf separators c ((mem_separators c).mpr hc)
    (fun x hx => not_mem_separators x (hsuf x hx))

theorem getLast?_split (pre suf : wstring) (c : wchar_t) :
    (pre ++ c :: suf).getLast? = (c :: suf).getLast? := by
  rw [List.getLast?_append]
  simp [List.getLast?_cons]

/-- The last character of a string whose characters after `c` are no separators
is a separator only when nothing comes after `c`. -/
theorem getLast?_cons_not_separator (suf : wstring) (c : wchar_t) (hne : suf ≠ [])
    (hsuf : ∀ x ∈ suf, isSeparator x = false) :
    ∃ z, (c :: suf).getLast? = some z ∧ isSeparator z = false := by
  refine ⟨suf.getLast hne, ?_, hsuf _ (List.getLast_mem hne)⟩
  rw [List.getLast?_cons, List.getLast?_eq_getLast suf hne]
  rfl

theorem GetPath_split (pre suf : wstring) (c : wchar_t) (hc : isSeparator c = true)
    (hsuf : ∀ x ∈ suf, isSeparator x = false) :
    GetPath (pre ++ c :: suf) = .ok (pre ++ [c]) := by
  have hne : (pre ++ c :: suf).isEmpty = false := by simp
  unfold GetPath
  rw [hne, getLast?_split]
  by_cases hs : suf = []
  · subst hs
    have hc2 := (isSeparator_iff c).mp hc
    rcases hc2 with rfl | rfl <;> simp
  · obtain ⟨z, hz, hzsep⟩ := getLast?_cons_not_separator suf c hs hsuf
    have hz2 : ¬ (z = '/' ∨ z = '\\') := by
      rw [← isSeparator_iff]; simp [hzsep]
    have hcond : ¬ (some z = some '/' ∨ some z = some '\\') := by
      simpa using hz2
    rw [hz, if_neg (by simp), if_neg hcond, find_last_of_split pre suf c hc hsuf]
    simp [wstring.substr, List.take_append_eq_append_take]

theorem GetPath_no_separator (filepath : wstring)
    (h : ∀ c ∈ filepath, isSeparator c = false) : GetPath filepath = .ok [] := by
  unfold GetPath
  by_cases he : filepath = []
  · simp [he]
  · have hfind : wstring.find_last_of filepath separators = none :=
      wstring.find_last_of_eq_none _ _ (fun c hc => not_mem_separators c (h c hc))
    have hz : isSeparator (filepath.getLast he) = false := h _ (List.getLast_mem he)
    have hz2 : ¬ (filepath.getLast he = '/' ∨ filepath.getLast he = '\\') := by
      rw [← isSeparator_iff]; simp [hz]
    have hcond : ¬ (filepath.getLast? = some '/' ∨ filepath.getLast? = some '\\') := by
      rw [List.getLast?_eq_getLast filepath he]; simpa using hz2
    have hemp : filepath.isEmpty = false := by simpa using he
    rw [hemp, if_neg (by simp), if_neg hcond, hfind]

theorem GetFilename_no_separator (filepath : wstring)
    (h : ∀ c ∈ filepath, isSeparator c = false) : GetFilename filepath = .ok filepath := by
  unfold GetFilename
  by_cases he : filepath = []
  · simp [he]
  · have hfind : wstring.find_last_of filepath separators = none :=
      wstring.find_last_of_eq_none _ _ (fun c hc => not_mem_separators c (h c hc))
    have hemp : filepath.isEmpty = false := by simpa using he
    rw [hemp, if_neg (by simp), hfind]

theorem GetFilename_split (pre suf : wstring) (c : wchar_t) (hc : isSeparator c = true)
    (hsuf : ∀ x ∈ suf, isSeparator x = false) :
    GetFilename (pre ++ c :: suf) = .ok suf := by
  have hne : (pre ++ c :: suf).isEmpty = false := by simp
  unfold GetFilename
  rw [hne, if_neg (by simp), find_last_of_split pre suf c hc hsuf]
  simp [wstring.substr]

theorem all_not_separator_or (s : wstring) :
    (∀ c ∈ s, isSeparator c = false) ∨ ∃ c ∈ s, isSeparator c = true := by
  by_cases h : ∃ c ∈ s, isSeparator c = true
  · exact Or.inr h
  · refine Or.inl (fun c hc => ?_)
    cases hsx : isSeparator c with
    | false => rfl
    | true => exact absurd ⟨c, hc, hsx⟩ h

theorem MakePath_ok (directory file : wstring) (hd : directory ≠ []) (hf : file ≠ []) :
    MakePath directory file =
      .ok ((if isSeparator (directory.getLast hd) then directory else directory ++ ['\\'])
        ++ file) := by
  have hlast := List.getLast?_eq_getLast directory hd
  unfold MakePath
  rw [if_neg (by simp [hd, hf])]
  simp only [hlast]
  by_cases hs : isSeparator (directory.getLast hd) = true
  · rcases (isSeparator_iff _).mp hs with h | h <;> simp [h, isSeparator]
  · have h2 : ¬ (directory.getLast hd = '/' ∨ directory.getLast hd = '\\') := by
      rw [← isSeparator_iff]; exact hs
    have h3 : ¬ ('\\' = directory.getLast hd) := fun h => h2 (Or.inr h.symm)
    have h4 : ¬ ('/' = directory.getLast hd) := fun h => h2 (Or.inl h.symm)
    simp [hs, h3, h4]

theorem stripTrailingSeparators_eq_self (l : wstring)
    (h : ∀ c, l.getLast? = some c → isSeparator c = false) :
    stripTrailingSeparators l = l := by
  rcases List.eq_nil_or_concat l with rfl | ⟨init, z, rfl⟩
  · rfl
  · rw [List.concat_eq_append] at h ⊢
    have hz : isSeparator z = false := h z (by simp)
    simp [stripTrailingSeparators, hz]

theorem stripTrailingSeparators_concat (init : wstring) (z : wchar_t)
    (hz : isSeparator z = true) :
    stripTrailingSeparators (init ++ [z]) = stripTrailingSeparators init := by
  simp [stripTrailingSeparators, hz]

/-! ## `Mkdir` lemmas -/

theorem Mkdir.loop_nil {σ : Type} (os : Win32 σ) (target dir : wstring) (fs : σ) :
    Mkdir.loop os target dir [] fs =
      (target ++ dir ++ ['\\'],
        if (os.CreateDirectoryW (target ++ dir ++ ['\\']) fs).success then ERROR_SUCCESS
        else (os.CreateDirectoryW (target ++ dir ++ ['\\']) fs).lastError,
        (os.CreateDirectoryW (target ++ dir ++ ['\\']) fs).fs) := by
  rw [Mkdir.loop]

theorem Mkdir.loop_cons {σ : Type} (os : Win32 σ) (target dir next : wstring)
    (rest : List wstring) (fs : σ) :
    Mkdir.loop os target dir (next :: rest) fs =
      Mkdir.loop os (target ++ dir ++ ['\\']) next rest
        (os.CreateDirectoryW (target ++ dir ++ ['\\']) fs).fs := by
  rw [Mkdir.loop]

theorem appendSegments_cons (target dir : wstring) (rest : List wstring) :
    appendSegments target (dir :: rest) = appendSegments (target ++ dir ++ ['\\']) rest := by
  simp [appendSegments, List.append_assoc]

theorem appendSegments_nil (target : wstring) : appendSegments target [] = target := by
  simp [appendSegments]

/-- The function `Mkdir` returns at once on an empty path and on fewer than two segments. -/
theorem Mkdir_of_few_segments {σ : Type} (lib : StringLib) (os : Win32 σ) (path : wstring)
    (fs : σ) (h : path = [] ∨ (lib.Tokenize path separators).length < 2) :
    Mkdir lib os path fs = (.ok (), fs) := by
  unfold Mkdir
  by_cases hp : path = []
  · simp [hp]
  · have hlen : (lib.Tokenize path separators).length < 2 := by
      rcases h with h | h
      · exact absurd h hp
      · exact h
    have hemp : path.isEmpty = false := by simpa using hp
    rw [hemp, if_neg (by simp)]
    by_cases h0 : 0 = (lib.Tokenize path separators).length
    · simp only
      rw [if_pos h0]
    · have h1 : 1 = (lib.Tokenize path separators).length := by omega
      simp only
      rw [if_neg h0, if_pos h1]

/-- The function `Mkdir` on two segments or more: the loop runs and its last error decides. -/
theorem Mkdir_of_segments {σ : Type} (lib : StringLib) (os : Win32 σ) (path : wstring) (fs : σ)
    (first second : wstring) (rest : List wstring) (hp : path ≠ [])
    (htok : lib.Tokenize path separators = first :: second :: rest) :
    Mkdir lib os path fs =
      if ERROR_SUCCESS ≠ (Mkdir.loop os (extendedPrefix ++ first ++ ['\\']) second rest fs).2.1 ∧
          ERROR_ALREADY_EXISTS ≠
            (Mkdir.loop os (extendedPrefix ++ first ++ ['\\']) second rest fs).2.1 then
        (.error (.runtime_error ("Failed to create directory: " ++
          lib.ToAnsi (Mkdir.loop os (extendedPrefix ++ first ++ ['\\']) second rest fs).1)),
          (Mkdir.loop os (extendedPrefix ++ first ++ ['\\']) second rest fs).2.2)
      else
        (.ok (), (Mkdir.loop os (extendedPrefix ++ first ++ ['\\']) second rest fs).2.2) := by
  have hemp : path.isEmpty = false := by simpa using hp
  unfold Mkdir
  rw [hemp, if_neg (by simp)]
  simp only [htok]
  rw [if_neg (by simp), if_neg (by simp)]

theorem exists_two_segments (dirs : List wstring) (h : 2 ≤ dirs.length) :
    ∃ first second rest, dirs = first :: second :: rest := by
  match dirs, h with
  | first :: second :: rest, _ => exact ⟨first, second, rest, rfl⟩

/-- The loop reaches the target of the last segment. -/
theorem Mkdir.loop_target {σ : Type} (os : Win32 σ) (rest : List wstring) :
    ∀ (target dir : wstring) (fs : σ),
      (Mkdir.loop os target dir rest fs).1 = appendSegments target (dir :: rest) := by
  induction rest with
  | nil =>
    intro target dir fs
    rw [Mkdir.loop_nil, appendSegments_cons, appendSegments_nil]
  | cons next rest ih =>
    intro target dir fs
    rw [Mkdir.loop_cons, ih, appendSegments_cons target dir]

/-- The loop over the logging operating system computes what the loop over the
plain one computes, and the last entry of its log is the attempt that set the
`lastError` the loop returns. -/
theorem Mkdir.loop_traced {σ : Type} (os : Win32 σ) (rest : List wstring) :
    ∀ (target dir : wstring) (fs : σ) (log : List Attempt),
      (Mkdir.loop os.traced target dir rest (fs, log)).1 = (Mkdir.loop os target dir rest fs).1 ∧
      (Mkdir.loop os.traced target dir rest (fs, log)).2.1 =
        (Mkdir.loop os target dir rest fs).2.1 ∧
      (Mkdir.loop os.traced target dir rest (fs, log)).2.2.1 =
        (Mkdir.loop os target dir rest fs).2.2 ∧
      ∃ a, (Mkdir.loop os.traced target dir rest (fs, log)).2.2.2.getLast? = some a ∧
        a.target = (Mkdir.loop os target dir rest fs).1 ∧
        (Mkdir.loop os target dir rest fs).2.1 =
          (if a.success then ERROR_SUCCESS else a.lastError) ∧
        ∃ fs0, a.success = (os.CreateDirectoryW a.target fs0).success ∧
          a.lastError = (os.CreateDirectoryW a.target fs0).lastError := by
  induction rest with
  | nil =>
    intro target dir fs log
    rw [Mkdir.loop_nil, Mkdir.loop_nil]
    refine ⟨rfl, rfl, rfl, ⟨_, List.getLast?_concat _, rfl, rfl, fs, rfl, rfl⟩⟩
  | cons next rest ih =>
    intro target dir fs log
    rw [Mkdir.loop_cons, Mkdir.loop_cons]
    exact ih _ _ _ _

/-! ## `Mkdir` over a hierarchical file system -/

section Hierarchical

variable {σ : Type} {os : Win32 σ} {present : σ → wstring → Prop}

theorem getLast?_append_backslash (target dir : wstring) :
    (target ++ dir ++ ['\\']).getLast? = some '\\' := by
  simp

/-- When the directory of the last segment exists, so does the directory of
the first segment of the loop. -/
theorem present_first_of_last (h : os.Hierarchical present) (fs : σ) (rest : List wstring) :
    ∀ (target dir : wstring), target.getLast? = some '\\' →
      present fs (appendSegments target (dir :: rest)) → present fs (target ++ dir ++ ['\\']) := by
  induction rest with
  | nil =>
    intro target dir _ hdir
    rw [appendSegments_cons, appendSegments_nil] at hdir
    exact hdir
  | cons next rest ih =>
    intro target dir _ hdir
    rw [appendSegments_cons] at hdir
    exact h.parent fs _ next (getLast?_append_backslash target dir)
      (ih _ next (getLast?_append_backslash target dir) hdir)

/-- When the loop ends without an error to report, the directory of the last
segment exists afterwards. -/
theorem Mkdir.loop_creates (h : os.Hierarchical present) (rest : List wstring) :
    ∀ (target dir : wstring) (fs : σ),
      ((Mkdir.loop os target dir rest fs).2.1 = ERROR_SUCCESS ∨
        (Mkdir.loop os target dir rest fs).2.1 = ERROR_ALREADY_EXISTS) →
      present (Mkdir.loop os target dir rest fs).2.2 (appendSegments target (dir :: rest)) := by
  induction rest with
  | nil =>
    intro target dir fs hle
    rw [Mkdir.loop_nil] at hle ⊢
    rw [appendSegments_cons, appendSegments_nil]
    cases hs : (os.CreateDirectoryW (target ++ dir ++ ['\\']) fs).success with
    | true => exact h.created fs _ hs
    | false =>
      simp only [hs] at hle
      rcases hle with hle | hle
      · exact absurd hle (h.failure_code _ fs hs)
      · exact h.reported fs _ hs hle
  | cons next rest ih =>
    intro target dir fs hle
    rw [Mkdir.loop_cons] at hle ⊢
    rw [appendSegments_cons]
    exact ih _ _ _ hle

/-- On a file system where the directory of the last segment exists, every
attempt of the loop reports `ERROR_ALREADY_EXISTS` and nothing changes. -/
theorem Mkdir.loop_of_present (h : os.Hierarchical present) (rest : List wstring) :
    ∀ (target dir : wstring) (fs : σ), target.getLast? = some '\\' →
      present fs (appendSegments target (dir :: rest)) →
      Mkdir.loop os target dir rest fs =
        (appendSegments target (dir :: rest), ERROR_ALREADY_EXISTS, fs) := by
  induction rest with
  | nil =>
    intro target dir fs _ hdir
    rw [appendSegments_cons, appendSegments_nil] at hdir ⊢
    rw [Mkdir.loop_nil, h.already_exists fs _ hdir]
    rfl
  | cons next rest ih =>
    intro target dir fs ht hdir
    have hfirst := present_first_of_last h fs (next :: rest) target dir ht hdir
    rw [Mkdir.loop_cons, h.already_exists fs _ hfirst, appendSegments_cons]
    rw [appendSegments_cons] at hdir
    exact ih _ next fs (getLast?_append_backslash target dir) hdir

end Hierarchical

/-! ## The concrete environment -/

theorem Model.os_hierarchical :
    Model.os.Hierarchical (fun fs t => Model.isDir fs t = true) where
  already_exists := by
    intro fs t ht
    simp [Model.os, Model.CreateDirectoryW, ht]
  created := by
    intro fs t
    simp only [Model.os, Model.CreateDirectoryW]
    split
    · simp
    · split
      · intro _
        simp [Model.isDir]
      · simp
  reported := by
    intro fs t
    simp only [Model.os, Model.CreateDirectoryW]
    split
    · intro _ _
      assumption
    · split
      · simp
      · simp [ERROR_PATH_NOT_FOUND, ERROR_ALREADY_EXISTS]
  failure_code := by
    intro t fs
    simp only [Model.os, Model.CreateDirectoryW]
    split
    · simp [ERROR_SUCCESS, ERROR_ALREADY_EXISTS]
    · split
      · simp
      · simp [ERROR_PATH_NOT_FOUND, ERROR_SUCCESS]
  parent := by
    intro fs t dir _ hdir
    simp only [Model.isDir, List.any_eq_true, List.isPrefixOf_iff_prefix] at hdir ⊢
    obtain ⟨u, hu, hpre⟩ := hdir
    refine ⟨u, hu, List.IsPrefix.trans ?_ hpre⟩
    rw [List.append_assoc]
    exact List.prefix_append _ _

theorem Model.scripted_reportsFailures : Model.scripted.ReportsFailures := by
  intro target script
  cases script with
  | nil => simp [Model.scripted, ERROR_ACCESS_DENIED, ERROR_SUCCESS]
  | cons code more => simp [Model.scripted]

/-! ## The claims -/

/-- C1: for non-empty `directory` and `file`, when the last character of
`directory` is neither a backslash nor a slash, `MakePath` returns `directory`,
one backslash, `file`. -/
theorem MakePath_inserts_backslash (directory file : wstring) (hd : directory ≠ [])
    (hf : file ≠ [])
    (hlast : directory.getLast hd ≠ '\\' ∧ directory.getLast hd ≠ '/') :
    MakePath directory file = .ok (directory ++ ['\\'] ++ file) := by
  have hs : isSeparator (directory.getLast hd) = false := by
    simp [isSeparator, hlast.1, hlast.2]
  rw [MakePath_ok directory file hd hf, hs]
  rfl

theorem MakePath_inserts_backslash_witness :
    MakePath "C:\\data".toList "out.txt".toList = .ok "C:\\data\\out.txt".toList :=
  MakePath_inserts_backslash "C:\\data".toList "out.txt".toList (by decide) (by decide)
    (by decide)

/-- C2: `MakePath` throws exactly when `directory` or `file` is empty, and
returns a string exactly when both are non-empty. -/
theorem MakePath_throws_iff_empty (directory file : wstring) :
    ((∃ e, MakePath directory file = .error e) ↔ (directory = [] ∨ file = [])) ∧
    ((∃ r, MakePath directory file = .ok r) ↔ (directory ≠ [] ∧ file ≠ [])) := by
  by_cases h : directory = [] ∨ file = []
  · have hthrow : MakePath directory file =
        .error (.runtime_error "Invalid (missing) directory name or file name") := by
      unfold MakePath
      rw [if_pos (by simpa using h)]
    constructor
    · exact ⟨fun _ => h, fun _ => ⟨_, hthrow⟩⟩
    · constructor
      · rintro ⟨r, hr⟩
        rw [hthrow] at hr
        cases hr
      · rintro ⟨hd, hf⟩
        rcases h with h | h
        · exact absurd h hd
        · exact absurd h hf
  · have hd : directory ≠ [] := fun hd => h (Or.inl hd)
    have hf : file ≠ [] := fun hf => h (Or.inr hf)
    have hok := MakePath_ok directory file hd hf
    constructor
    · constructor
      · rintro ⟨e, he⟩
        rw [hok] at he
        cases he
      · intro h2
        exact absurd h2 h
    · exact ⟨fun _ => ⟨hd, hf⟩, fun _ => ⟨_, hok⟩⟩

/-- C3: when `filepath` contains a separator, `GetPath filepath` is the prefix
of `filepath` that ends with its last separator: `filepath` is `pre`, a
separator `c`, and a rest without separators, and the result is `pre` with `c`. -/
theorem GetPath_through_last_separator (filepath : wstring)
    (h : ∃ c ∈ filepath, isSeparator c = true) :
    ∃ pre c suf, filepath = pre ++ c :: suf ∧ isSeparator c = true ∧
      (∀ x ∈ suf, isSeparator x = false) ∧ GetPath filepath = .ok (pre ++ [c]) := by
  obtain ⟨pre, c, suf, hs, hc, hsuf⟩ := exists_last_separator filepath h
  refine ⟨pre, c, suf, hs, hc, hsuf, ?_⟩
  rw [hs]
  exact GetPath_split pre suf c hc hsuf

theorem GetPath_through_last_separator_witness :
    ∃ pre c suf, "C:\\a\\b\\c.txt".toList = pre ++ c :: suf ∧ isSeparator c = true ∧
      (∀ x ∈ suf, isSeparator x = false) ∧
      GetPath "C:\\a\\b\\c.txt".toList = .ok (pre ++ [c]) :=
  GetPath_through_last_separator "C:\\a\\b\\c.txt".toList ⟨'\\', by decide, by decide⟩

/-- C4: `GetFilename filepath` returns a string `name` without separators that
is the whole of `filepath`, or what follows a separator of `filepath` (so the
part after the last one); it is the longest suffix of `filepath` without
separators. -/
theorem GetFilename_after_last_separator (filepath : wstring) :
    ∃ name, GetFilename filepath = .ok name ∧
      (∀ x ∈ name, isSeparator x = false) ∧
      (name = filepath ∨ ∃ pre c, isSeparator c = true ∧ filepath = pre ++ c :: name) ∧
      name <:+ filepath ∧
      (∀ s : wstring, s <:+ filepath → (∀ x ∈ s, isSeparator x = false) →
        s.length ≤ name.length) := by
  rcases all_not_separator_or filepath with hno | hsep
  · exact ⟨filepath, GetFilename_no_separator filepath hno, hno, Or.inl rfl,
      List.suffix_refl _, fun s hs _ => hs.length_le⟩
  · obtain ⟨pre, c, suf, hs, hc, hsuf⟩ := exists_last_separator filepath hsep
    refine ⟨suf, ?_, hsuf, Or.inr ⟨pre, c, hc, hs⟩, ?_, ?_⟩
    · rw [hs]; exact GetFilename_split pre suf c hc hsuf
    · exact ⟨pre ++ [c], by simp [hs]⟩
    · intro s hsfx hsno
      by_contra hlen
      have hcs : (c :: suf) <:+ filepath := ⟨pre, hs.symm⟩
      have hle : (c :: suf).length ≤ s.length := by
        simp only [List.length_cons]; omega
      have hmem : c ∈ s := (List.suffix_of_suffix_length_le hcs hsfx hle).mem
        (List.mem_cons_self _ _)
      have := hsno c hmem
      rw [hc] at this
      cases this

/-- C5: when `filepath` contains no separator (the empty string included),
`GetPath filepath` is the empty string. -/
theorem GetPath_empty_without_separator (filepath : wstring)
    (h : ∀ c ∈ filepath, isSeparator c = false) : GetPath filepath = .ok [] :=
  GetPath_no_separator filepath h

theorem GetPath_empty_without_separator_witness :
    GetPath "file.txt".toList = .ok [] ∧ GetPath [] = .ok [] :=
  ⟨GetPath_empty_without_separator "file.txt".toList (by decide),
    GetPath_empty_without_separator [] (by decide)⟩

/-- C6: `GetPath` returns a `filepath` whose last character is a separator
unchanged, and `GetPath` is idempotent: it returns a string on which it returns
the same string again. -/
theorem GetPath_idempotent :
    (∀ filepath : wstring, (∃ c, filepath.getLast? = some c ∧ isSeparator c = true) →
      GetPath filepath = .ok filepath) ∧
    (∀ p : wstring, ∃ r, GetPath p = .ok r ∧ GetPath r = .ok r) := by
  have hfix : ∀ filepath : wstring,
      (∃ c, filepath.getLast? = some c ∧ isSeparator c = true) →
      GetPath filepath = .ok filepath := by
    rintro filepath ⟨c, hlast, hc⟩
    have hfp : filepath = filepath.dropLast ++ [c] :=
      (List.dropLast_append_getLast? c hlast).symm
    have := GetPath_split filepath.dropLast [] c hc (by simp)
    rw [← hfp] at this
    exact this
  refine ⟨hfix, fun p => ?_⟩
  rcases all_not_separator_or p with hno | hsep
  · exact ⟨[], GetPath_no_separator p hno, GetPath_no_separator [] (by simp)⟩
  · obtain ⟨pre, c, suf, hs, hc, hsuf⟩ := exists_last_separator p hsep
    refine ⟨pre ++ [c], ?_, hfix _ ⟨c, by simp, hc⟩⟩
    rw [hs]
    exact GetPath_split pre suf c hc hsuf

theorem GetPath_idempotent_witness :
    GetPath "C:\\a\\b\\".toList = .ok "C:\\a\\b\\".toList :=
  GetPath_idempotent.1 "C:\\a\\b\\".toList ⟨'\\', by decide, by decide⟩

/-- C7: on a path that splits into two segments or more, `Mkdir` throws exactly
when the last directory-creation attempt, the one for the final segment,
failed with an error code other than `ERROR_ALREADY_EXISTS`; nothing else of
the run (the outcome of an earlier attempt) enters. The attempts are read from
the log of the logging operating system, on which `Mkdir` behaves as on the
plain one. An error code is a code other than `ERROR_SUCCESS`; on an operating
system whose failed calls always leave such a code this need not be said. -/
theorem Mkdir_throws_iff_final_attempt_fails {σ : Type} (lib : StringLib) (os : Win32 σ)
    (path : wstring) (fs : σ) (hpath : path ≠ [])
    (hsegs : 2 ≤ (lib.Tokenize path separators).length) :
    (Mkdir lib os.traced path (fs, [])).1 = (Mkdir lib os path fs).1 ∧
    (Mkdir lib os.traced path (fs, [])).2.1 = (Mkdir lib os path fs).2 ∧
    ∃ a, (Mkdir lib os.traced path (fs, [])).2.2.getLast? = some a ∧
      a.target = fullTarget (lib.Tokenize path separators) ∧
      ((∃ e, (Mkdir lib os path fs).1 = .error e) ↔
        (a.success = false ∧ a.lastError ≠ ERROR_SUCCESS ∧
          a.lastError ≠ ERROR_ALREADY_EXISTS)) ∧
      (os.ReportsFailures →
        ((∃ e, (Mkdir lib os path fs).1 = .error e) ↔
          (a.success = false ∧ a.lastError ≠ ERROR_ALREADY_EXISTS))) := by
  obtain ⟨first, second, rest, htok⟩ := exists_two_segments _ hsegs
  obtain ⟨h1, h2, h3, a, ha, hat, hle, fs0, hs0, he0⟩ :=
    Mkdir.loop_traced os rest (extendedPrefix ++ first ++ ['\\']) second fs []
  have htarget : a.target = fullTarget (lib.Tokenize path separators) := by
    rw [hat, Mkdir.loop_target, htok, fullTarget, appendSegments_cons extendedPrefix]
  have hcode : os.ReportsFailures → a.success = false → a.lastError ≠ ERROR_SUCCESS := by
    intro hos hf
    rw [he0]
    exact hos a.target fs0 (by rw [← hs0]; exact hf)
  have hiff : (∃ e, (Mkdir lib os path fs).1 = .error e) ↔
      (a.success = false ∧ a.lastError ≠ ERROR_SUCCESS ∧
        a.lastError ≠ ERROR_ALREADY_EXISTS) := by
    rw [Mkdir_of_segments lib os path fs first second rest hpath htok]
    by_cases hc : ERROR_SUCCESS ≠
          (Mkdir.loop os (extendedPrefix ++ first ++ ['\\']) second rest fs).2.1 ∧
        ERROR_ALREADY_EXISTS ≠
          (Mkdir.loop os (extendedPrefix ++ first ++ ['\\']) second rest fs).2.1
    · rw [if_pos hc]
      refine ⟨fun _ => ?_, fun _ => ⟨_, rfl⟩⟩
      rw [hle] at hc
      cases hs : a.success with
      | true => simp [hs] at hc
      | false =>
        simp only [hs] at hc
        exact ⟨rfl, fun h => hc.1 h.symm, fun h => hc.2 h.symm⟩
    · rw [if_neg hc]
      refine ⟨?_, fun hfail => ?_⟩
      · rintro ⟨e, he⟩
        cases he
      · exfalso
        apply hc
        rw [hle]
        simp only [hfail.1]
        exact ⟨fun h => hfail.2.1 h.symm, fun h => hfail.2.2 h.symm⟩
  have hsame : Mkdir lib os.traced path (fs, []) =
      ((Mkdir lib os path fs).1, ((Mkdir lib os path fs).2,
        (Mkdir.loop os.traced (extendedPrefix ++ first ++ ['\\']) second rest
          (fs, [])).2.2.2)) := by
    rw [Mkdir_of_segments lib os.traced path (fs, []) first second rest hpath htok,
      Mkdir_of_segments lib os path fs first second rest hpath htok, h1, h2]
    by_cases hc : ERROR_SUCCESS ≠
          (Mkdir.loop os (extendedPrefix ++ first ++ ['\\']) second rest fs).2.1 ∧
        ERROR_ALREADY_EXISTS ≠
          (Mkdir.loop os (extendedPrefix ++ first ++ ['\\']) second rest fs).2.1
    · rw [if_pos hc, if_pos hc, ← h3]
    · rw [if_neg hc, if_neg hc, ← h3]
  refine ⟨by rw [hsame], by rw [hsame], a, by rw [hsame]; exact ha, htarget, hiff, fun hos => ?_⟩
  rw [hiff]
  exact ⟨fun h => ⟨h.1, h.2.2⟩, fun h => ⟨h.1, hcode hos h.1, h.2⟩⟩

theorem Mkdir_throws_iff_final_attempt_fails_witness :
    ∃ a, (Mkdir stringLib Model.scripted.traced
        "C:\\a\\b\\c".toList ([5, 0, 183], [])).2.2.getLast? = some a ∧
      a.target = fullTarget (stringLib.Tokenize "C:\\a\\b\\c".toList separators) ∧
      ((∃ e, (Mkdir stringLib Model.scripted "C:\\a\\b\\c".toList [5, 0, 183]).1 = .error e) ↔
        (a.success = false ∧ a.lastError ≠ ERROR_ALREADY_EXISTS)) := by
  obtain ⟨_, _, a, ha, ht, _, h⟩ :=
    Mkdir_throws_iff_final_attempt_fails stringLib Model.scripted "C:\\a\\b\\c".toList
      [5, 0, 183] (by decide) (by decide)
  exact ⟨a, ha, ht, h Model.scripted_reportsFailures⟩

/-- C8: on an empty path and on a path that splits into fewer than two
segments `Mkdir` does nothing: it returns normally, the file system is the one
it was given, and the log of directory-creation attempts stays empty. -/
theorem Mkdir_noop_below_two_segments {σ : Type} (lib : StringLib) (os : Win32 σ)
    (path : wstring) (fs : σ)
    (h : path = [] ∨ (lib.Tokenize path separators).length < 2) :
    Mkdir lib os path fs = (.ok (), fs) ∧
    Mkdir lib os.traced path (fs, []) = (.ok (), (fs, [])) :=
  ⟨Mkdir_of_few_segments lib os path fs h, Mkdir_of_few_segments lib os.traced path (fs, []) h⟩

theorem Mkdir_noop_below_two_segments_witness :
    (Mkdir stringLib Model.os "C:".toList [] = (.ok (), []) ∧
      Mkdir stringLib Model.os.traced "C:".toList ([], []) = (.ok (), ([], []))) ∧
    (Mkdir stringLib Model.os [] [] = (.ok (), []) ∧
      Mkdir stringLib Model.os.traced [] ([], []) = (.ok (), ([], []))) :=
  ⟨Mkdir_noop_below_two_segments stringLib Model.os "C:".toList [] (Or.inr (by decide)),
    Mkdir_noop_below_two_segments stringLib Model.os [] [] (Or.inl rfl)⟩

/-- C9: over a hierarchical file system, where creating a directory that exists
reports `ERROR_ALREADY_EXISTS`, a call of `Mkdir` that follows a call on the
same path that returned without error returns without error as well and leaves
the file system as the first call left it. -/
theorem Mkdir_again_is_noop {σ : Type} (lib : StringLib) (os : Win32 σ)
    (present : σ → wstring → Prop) (hfs : os.Hierarchical present) (path : wstring) (fs : σ)
    (hfirst : (Mkdir lib os path fs).1 = .ok ()) :
    Mkdir lib os path (Mkdir lib os path fs).2 = (.ok (), (Mkdir lib os path fs).2) := by
  by_cases hfew : path = [] ∨ (lib.Tokenize path separators).length < 2
  · rw [Mkdir_of_few_segments lib os path fs hfew]
    exact Mkdir_of_few_segments lib os path fs hfew
  · have hpath : path ≠ [] := fun h => hfew (Or.inl h)
    have hsegs : 2 ≤ (lib.Tokenize path separators).length := by
      by_contra hlt
      exact hfew (Or.inr (by omega))
    obtain ⟨first, second, rest, htok⟩ := exists_two_segments _ hsegs
    have hrun := Mkdir_of_segments lib os path fs first second rest hpath htok
    by_cases hc : ERROR_SUCCESS ≠
          (Mkdir.loop os (extendedPrefix ++ first ++ ['\\']) second rest fs).2.1 ∧
        ERROR_ALREADY_EXISTS ≠
          (Mkdir.loop os (extendedPrefix ++ first ++ ['\\']) second rest fs).2.1
    · rw [hrun, if_pos hc] at hfirst
      cases hfirst
    · rw [if_neg hc] at hrun
      have hle : (Mkdir.loop os (extendedPrefix ++ first ++ ['\\']) second rest fs).2.1 =
            ERROR_SUCCESS ∨
          (Mkdir.loop os (extendedPrefix ++ first ++ ['\\']) second rest fs).2.1 =
            ERROR_ALREADY_EXISTS := by
        by_contra hne
        exact hc ⟨fun h => hne (Or.inl h.symm), fun h => hne (Or.inr h.symm)⟩
      have hdir := Mkdir.loop_creates hfs rest (extendedPrefix ++ first ++ ['\\']) second fs hle
      have hsecond := Mkdir.loop_of_present hfs rest (extendedPrefix ++ first ++ ['\\']) second
        (Mkdir.loop os (extendedPrefix ++ first ++ ['\\']) second rest fs).2.2
        (getLast?_append_backslash extendedPrefix first) hdir
      rw [hrun, Mkdir_of_segments lib os path _ first second rest hpath htok, hsecond]
      rw [if_neg (by simp)]

theorem Mkdir_again_is_noop_witness :
    Mkdir stringLib Model.os "C:\\a\\b\\c".toList
        (Mkdir stringLib Model.os "C:\\a\\b\\c".toList [fullTarget ["C:".toList]]).2 =
      (.ok (), (Mkdir stringLib Model.os "C:\\a\\b\\c".toList [fullTarget ["C:".toList]]).2) :=
  Mkdir_again_is_noop stringLib Model.os (fun fs t => Model.isDir fs t = true)
    Model.os_hierarchical "C:\\a\\b\\c".toList [fullTarget ["C:".toList]] (by rfl)

/-- C10, as stated, fails: on a directory with two trailing separators the
result keeps one of them in front of the separator that joins, so it is not
the stem, one separator and the file. -/
theorem MakePath_keeps_second_trailing_separator :
    MakePath "C:\\data\\\\".toList "out.txt".toList = .ok "C:\\data\\\\out.txt".toList ∧
    stripTrailingSeparators "C:\\data\\\\".toList = "C:\\data".toList ∧
    ¬ ∃ sep, MakePath "C:\\data\\\\".toList "out.txt".toList =
      .ok (stripTrailingSeparators "C:\\data\\\\".toList ++ [sep] ++ "out.txt".toList) := by
  have hrun : MakePath "C:\\data\\\\".toList "out.txt".toList =
      .ok "C:\\data\\\\out.txt".toList := by rfl
  have hstem : stripTrailingSeparators "C:\\data\\\\".toList = "C:\\data".toList := by decide
  refine ⟨hrun, hstem, ?_⟩
  rintro ⟨sep, h⟩
  rw [hrun, hstem] at h
  injection h with h
  have hlen := congrArg List.length h
  simp at hlen

/-- C10, amended: for non-empty `directory` and `file`, `MakePath` returns
`directory` without its last character when that is a separator (one trailing
separator at most is removed), then one separator, then `file`. The separator
is the removed character itself when one was removed, and a backslash when
`directory` does not end in a separator. When what is left of `directory` does
not end in a separator, it is the stem of the claim. -/
theorem MakePath_joins_with_one_separator (directory file : wstring) (hd : directory ≠ [])
    (hf : file ≠ []) :
    ∃ sep, isSeparator sep = true ∧
      sep = (if isSeparator (directory.getLast hd) = true then directory.getLast hd
        else '\\') ∧
      MakePath directory file = .ok (dropTrailingSeparator directory ++ [sep] ++ file) ∧
      ((∀ c, (dropTrailingSeparator directory).getLast? = some c → isSeparator c = false) →
        dropTrailingSeparator directory = stripTrailingSeparators directory) := by
  have hlast := List.getLast?_eq_getLast directory hd
  have hrun := MakePath_ok directory file hd hf
  cases hs : isSeparator (directory.getLast hd) with
  | true =>
    have hdrop : dropTrailingSeparator directory = directory.dropLast := by
      simp [dropTrailingSeparator, hlast, hs]
    have hsplit : directory.dropLast ++ [directory.getLast hd] = directory :=
      List.dropLast_append_getLast hd
    refine ⟨directory.getLast hd, hs, by simp, ?_, fun hno => ?_⟩
    · rw [hrun, hs, hdrop, hsplit]
      rfl
    · rw [hdrop] at hno ⊢
      rw [← stripTrailingSeparators_eq_self directory.dropLast hno]
      conv => rhs; rw [← hsplit]
      exact (stripTrailingSeparators_concat _ _ hs).symm
  | false =>
    have hdrop : dropTrailingSeparator directory = directory := by
      simp [dropTrailingSeparator, hlast, hs]
    refine ⟨'\\', by decide, by simp, ?_, fun hno => ?_⟩
    · rw [hrun, hs, hdrop]
      rfl
    · rw [hdrop] at hno ⊢
      exact (stripTrailingSeparators_eq_self directory hno).symm

theorem MakePath_joins_with_one_separator_witness :
    ∃ sep, isSeparator sep = true ∧
      sep = (if isSeparator ("C:\\data/".toList.getLast (by decide)) = true then
        "C:\\data/".toList.getLast (by decide) else '\\') ∧
      MakePath "C:\\data/".toList "out.txt".toList =
        .ok (dropTrailingSeparator "C:\\data/".toList ++ [sep] ++ "out.txt".toList) ∧
      ((∀ c, (dropTrailingSeparator "C:\\data/".toList).getLast? = some c →
          isSeparator c = false) →
        dropTrailingSeparator "C:\\data/".toList =
          stripTrailingSeparators "C:\\data/".toList) :=
  MakePath_joins_with_one_separator "C:\\data/".toList "out.txt".toList (by decide)
    (by decide)

/-- C16: for every `filepath` (empty, ending in a separator or without a
separator included) `GetPath` and `GetFilename` both return, and the result of
`GetPath` followed by the result of `GetFilename` is `filepath`. -/
theorem GetPath_append_GetFilename (filepath : wstring) :
    ∃ dir name, GetPath filepath = .ok dir ∧ GetFilename filepath = .ok name ∧
      dir ++ name = filepath := by
  rcases all_not_separator_or filepath with hno | hsep
  · exact ⟨[], filepath, GetPath_no_separator filepath hno,
      GetFilename_no_separator filepath hno, rfl⟩
  · obtain ⟨pre, c, suf, hs, hc, hsuf⟩ := exists_last_separator filepath hsep
    refine ⟨pre ++ [c], suf, ?_, ?_, ?_⟩
    · rw [hs]; exact GetPath_split pre suf c hc hsuf
    · rw [hs]; exact GetFilename_split pre suf c hc hsuf
    · rw [hs]; simp

/-- C17: for a non-empty `directory` and a non-empty `file` without separators,
`MakePath` returns a path on which `GetFilename` returns `file`. -/
theorem GetFilename_MakePath (directory file : wstring) (hd : directory ≠ [])
    (hf : file ≠ []) (hfree : ∀ c ∈ file, isSeparator c = false) :
    ∃ joined, MakePath directory file = .ok joined ∧ GetFilename joined = .ok file := by
  refine ⟨_, MakePath_ok directory file hd hf, ?_⟩
  cases hs : isSeparator (directory.getLast hd) with
  | true =>
    have hsplit : directory.dropLast ++ [directory.getLast hd] = directory :=
      List.dropLast_append_getLast hd
    have := GetFilename_split directory.dropLast file (directory.getLast hd) hs hfree
    rw [← List.singleton_append, ← List.append_assoc, hsplit] at this
    simpa using this
  | false =>
    have := GetFilename_split directory file '\\' (by decide) hfree
    rw [← List.singleton_append, ← List.append_assoc] at this
    simpa using this

theorem GetFilename_MakePath_witness :
    ∃ joined, MakePath "C:\\data".toList "out.txt".toList = .ok joined ∧
      GetFilename joined = .ok "out.txt".toList :=
  GetFilename_MakePath "C:\\data".toList "out.txt".toList (by decide) (by decide) (by decide)

/-- C18: when `GetPath filepath` and `GetFilename filepath` are both non-empty,
`MakePath` applied to them returns `filepath`: no separator is added and the
separator of `filepath` is kept. -/
theorem MakePath_GetPath_GetFilename (filepath dir name : wstring)
    (hdir : GetPath filepath = .ok dir) (hname : GetFilename filepath = .ok name)
    (hd : dir ≠ []) (hn : name ≠ []) : MakePath dir name = .ok filepath := by
  rcases all_not_separator_or filepath with hno | hsep
  · rw [GetPath_no_separator filepath hno] at hdir
    injection hdir with hdir
    exact absurd hdir.symm hd
  · obtain ⟨pre, c, suf, hs, hc, hsuf⟩ := exists_last_separator filepath hsep
    rw [hs, GetPath_split pre suf c hc hsuf] at hdir
    rw [hs, GetFilename_split pre suf c hc hsuf] at hname
    injection hdir with hdir
    injection hname with hname
    subst hdir hname
    rw [MakePath_ok (pre ++ [c]) suf hd hn]
    have hlast : (pre ++ [c]).getLast hd = c := by simp
    rw [hlast, hc, hs]
    simp

theorem MakePath_GetPath_GetFilename_witness :
    MakePath "C:\\a/".toList "c.txt".toList = .ok "C:\\a/c.txt".toList :=
  MakePath_GetPath_GetFilename "C:\\a/c.txt".toList "C:\\a/".toList "c.txt".toList
    (by rfl) (by rfl) (by decide) (by decide)

/-! ## The attempts of `Mkdir`, one by one -/

theorem appendSegments_concat (target seg : wstring) (dirs : List wstring) :
    appendSegments target (dirs ++ [seg]) = appendSegments target dirs ++ seg ++ ['\\'] := by
  simp [appendSegments, List.append_assoc]

theorem length_appendSegments_le (target : wstring) (dirs : List wstring) :
    target.length ≤ (appendSegments target dirs).length := by
  simp [appendSegments]

/-- The targets the loop passes to `CreateDirectoryW`, in order: after the
targets logged before, one target for each segment, each with all segments up
to its own. -/
theorem Mkdir.loop_log_targets {σ : Type} (os : Win32 σ) (rest : List wstring) :
    ∀ (target dir : wstring) (fs : σ) (log : List Attempt),
      (Mkdir.loop os.traced target dir rest (fs, log)).2.2.2.map Attempt.target =
        log.map Attempt.target ++
          (List.range (rest.length + 1)).map
            (fun k => appendSegments target ((dir :: rest).take (k + 1))) := by
  induction rest with
  | nil =>
    intro target dir fs log
    rw [Mkdir.loop_nil]
    simp [Win32.traced, appendSegments]
  | cons next rest ih =>
    intro target dir fs log
    rw [Mkdir.loop_cons]
    refine (ih (target ++ dir ++ ['\\']) next (os.CreateDirectoryW (target ++ dir ++ ['\\']) fs).fs
      (log ++ [⟨target ++ dir ++ ['\\'],
        (os.CreateDirectoryW (target ++ dir ++ ['\\']) fs).success,
        (os.CreateDirectoryW (target ++ dir ++ ['\\']) fs).lastError⟩])).trans ?_
    rw [List.length_cons, List.range_succ_eq_map (rest.length + 1)]
    simp only [List.map_append, List.map_cons, List.map_nil, List.append_assoc,
      List.singleton_append, List.map_map, List.length_cons]
    congr 1
    congr 1
    · simp [appendSegments]
    · apply List.map_congr_left
      intro k _
      simp only [Function.comp, List.take_succ_cons, appendSegments_cons, List.append_assoc]

/-- The file system and log `Mkdir` leaves are those the loop leaves. -/
theorem Mkdir_state_of_segments {σ : Type} (lib : StringLib) (os : Win32 σ) (path : wstring)
    (fs : σ) (first second : wstring) (rest : List wstring) (hp : path ≠ [])
    (htok : lib.Tokenize path separators = first :: second :: rest) :
    (Mkdir lib os path fs).2 =
      (Mkdir.loop os (extendedPrefix ++ first ++ ['\\']) second rest fs).2.2 := by
  rw [Mkdir_of_segments lib os path fs first second rest hp htok]
  split <;> rfl

/-- The targets of the attempts of `Mkdir` on a path of two segments or more. -/
theorem Mkdir_log_targets {σ : Type} (lib : StringLib) (os : Win32 σ) (path : wstring) (fs : σ)
    (hpath : path ≠ []) (hsegs : 2 ≤ (lib.Tokenize path separators).length) :
    (Mkdir lib os.traced path (fs, [])).2.2.map Attempt.target =
      (List.range ((lib.Tokenize path separators).length - 1)).map
        (fun k => fullTarget ((lib.Tokenize path separators).take (k + 2))) := by
  obtain ⟨first, second, rest, htok⟩ := exists_two_segments _ hsegs
  rw [Mkdir_state_of_segments lib os.traced path (fs, []) first second rest hpath htok,
    Mkdir.loop_log_targets, htok]
  simp only [List.map_nil, List.nil_append, List.length_cons, Nat.add_sub_cancel]
  apply List.map_congr_left
  intro k _
  simp only [List.take_succ_cons, fullTarget, appendSegments_cons]

/-- The targets of the attempts of `Mkdir` on any path, when the empty path has
no segments. -/
theorem Mkdir_log_targets_of_empty {σ : Type} (lib : StringLib) (os : Win32 σ) (path : wstring)
    (fs : σ) (hempty : lib.Tokenize [] separators = []) :
    (Mkdir lib os.traced path (fs, [])).2.2.map Attempt.target =
      (List.range ((lib.Tokenize path separators).length - 1)).map
        (fun k => fullTarget ((lib.Tokenize path separators).take (k + 2))) := by
  by_cases hsegs : 2 ≤ (lib.Tokenize path separators).length
  · have hpath : path ≠ [] := by
      intro h
      rw [h, hempty] at hsegs
      simp at hsegs
    exact Mkdir_log_targets lib os path fs hpath hsegs
  · rw [Mkdir_of_few_segments lib os.traced path (fs, []) (Or.inr (by omega))]
    have h0 : (lib.Tokenize path separators).length - 1 = 0 := by omega
    rw [h0]
    rfl

theorem mem_appendSegments (target : wstring) (dirs : List wstring) (c : wchar_t)
    (hc : c ∈ appendSegments target dirs) :
    c ∈ target ∨ c = '\\' ∨ ∃ d ∈ dirs, c ∈ d := by
  simp only [appendSegments, List.mem_append, List.mem_flatten, List.mem_map] at hc
  rcases hc with hc | ⟨l, ⟨d, hd, rfl⟩, hcl⟩
  · exact Or.inl hc
  · rcases List.mem_append.mp hcl with h | h
    · exact Or.inr (Or.inr ⟨d, hd, h⟩)
    · exact Or.inr (Or.inl (by simpa using h))

/-! ## The modelled tokenizer -/

theorem splitAt_cons_of_mem (delimiters cs : wstring) (a : wchar_t) (h : a ∈ delimiters) :
    splitAt (a :: cs) delimiters = [] :: splitAt cs delimiters := by
  simp [splitAt, h]

theorem splitAt_cons_of_not_mem (delimiters cs : wstring) (a : wchar_t) (h : a ∉ delimiters) :
    splitAt (a :: cs) delimiters =
      match splitAt cs delimiters with
      | [] => [[a]]
      | t :: ts => (a :: t) :: ts := by
  simp [splitAt, h]

theorem splitAt_separator_free (delimiters : wstring) (str : wstring) :
    ∀ t ∈ splitAt str delimiters, ∀ c ∈ t, c ∉ delimiters := by
  induction str with
  | nil =>
    intro t ht c hc
    have ht2 : t = [] := by simpa [splitAt] using ht
    rw [ht2] at hc
    simp at hc
  | cons a cs ih =>
    intro t ht c hc
    by_cases ha : a ∈ delimiters
    · rw [splitAt_cons_of_mem delimiters cs a ha] at ht
      rcases List.mem_cons.mp ht with h | h
      · rw [h] at hc
        simp at hc
      · exact ih t h c hc
    · rw [splitAt_cons_of_not_mem delimiters cs a ha] at ht
      cases hsplit : splitAt cs delimiters with
      | nil =>
        rw [hsplit] at ht
        have ht2 : t = [a] := by simpa using ht
        rw [ht2] at hc
        have hc2 : c = a := by simpa using hc
        rw [hc2]
        exact ha
      | cons u us =>
        rw [hsplit] at ht
        rcases List.mem_cons.mp ht with h | h
        · rw [h] at hc
          rcases List.mem_cons.mp hc with h2 | h2
          · rw [h2]
            exact ha
          · exact ih u (by rw [hsplit]; exact List.mem_cons_self _ _) c h2
        · exact ih t (by rw [hsplit]; exact List.mem_cons_of_mem _ h) c hc

/-- The segments of the modelled tokenizer contain no separator. -/
theorem Tokenize_separator_free (str : wstring) :
    ∀ seg ∈ Tokenize str separators, ∀ c ∈ seg, isSeparator c = false := by
  intro seg hseg c hc
  have hmem : seg ∈ splitAt str separators := (List.mem_filter.mp hseg).1
  have := splitAt_separator_free separators str seg hmem c hc
  rw [mem_separators] at this
  simpa using this

theorem splitAt_map_toBackslash (str : wstring) :
    splitAt (str.map toBackslash) separators = splitAt str separators := by
  induction str with
  | nil => rfl
  | cons a cs ih =>
    cases ha : isSeparator a with
    | true =>
      have h1 : a ∈ separators := (mem_separators a).mpr ha
      have h2 : toBackslash a ∈ separators := by
        simp [toBackslash, ha, separators]
      rw [List.map_cons, splitAt_cons_of_mem _ _ _ h1, splitAt_cons_of_mem _ _ _ h2, ih]
    | false =>
      have h0 : toBackslash a = a := by simp [toBackslash, ha]
      have h1 : a ∉ separators := not_mem_separators a ha
      rw [List.map_cons, h0, splitAt_cons_of_not_mem _ _ _ h1,
        splitAt_cons_of_not_mem _ _ _ h1, ih]

/-- Paths that differ only in which separator stands at each separator position
split into the same segments. -/
theorem Tokenize_eq_of_map_toBackslash (p q : wstring)
    (h : p.map toBackslash = q.map toBackslash) :
    Tokenize p separators = Tokenize q separators := by
  unfold Tokenize
  rw [← splitAt_map_toBackslash p, ← splitAt_map_toBackslash q, h]

theorem Model.wow64_lawful : Model.wow64.Lawful (fun s => s.redirection) where
  disable_saves := by
    intro s
    cases hw : s.isWow64 <;> simp [Model.wow64, hw]
  revert_restores := by
    intro v s
    cases hw : s.isWow64 <;> simp [Model.wow64, hw]

/-! ## The claims, continued -/

/-- C11: two paths that split into the same segments make `Mkdir` issue the
same sequence of directory-creation targets, whatever the operating system
answers, and every separator character in a target is a backslash. The
tokenizer is one that splits at separators: the empty path has no segments and
no segment contains a separator. -/
theorem Mkdir_separator_blind {σ τ : Type} (lib : StringLib) (os : Win32 σ) (os2 : Win32 τ)
    (p q : wstring) (fs : σ) (fs2 : τ)
    (hempty : lib.Tokenize [] separators = [])
    (htok : lib.Tokenize p separators = lib.Tokenize q separators)
    (hfree : ∀ seg ∈ lib.Tokenize p separators, ∀ c ∈ seg, isSeparator c = false) :
    (Mkdir lib os.traced p (fs, [])).2.2.map Attempt.target =
      (Mkdir lib os2.traced q (fs2, [])).2.2.map Attempt.target ∧
    ∀ a ∈ (Mkdir lib os.traced p (fs, [])).2.2, ∀ c ∈ a.target,
      isSeparator c = true → c = '\\' := by
  have hp := Mkdir_log_targets_of_empty lib os p fs hempty
  have hq := Mkdir_log_targets_of_empty lib os2 q fs2 hempty
  refine ⟨by rw [hp, hq, htok], ?_⟩
  intro a ha c hc hsep
  have hmem : a.target ∈ (Mkdir lib os.traced p (fs, [])).2.2.map Attempt.target :=
    List.mem_map_of_mem _ ha
  rw [hp] at hmem
  obtain ⟨k, _, hk⟩ := List.mem_map.mp hmem
  rw [← hk, fullTarget] at hc
  rcases mem_appendSegments _ _ c hc with h | h | ⟨d, hd, hcd⟩
  · simp only [extendedPrefix, List.mem_cons, List.mem_singleton] at h
    rcases h with h | h | h | h | h
    · exact h
    · exact h
    · rw [h] at hsep
      exact absurd hsep (by decide)
    · exact h
    · simp at h
  · exact h
  · have := hfree d (List.mem_of_mem_take hd) c hcd
    rw [hsep] at this
    cases this

theorem Mkdir_separator_blind_witness :
    (Mkdir stringLib Model.os.traced "C:/a\\b/c".toList
        ([fullTarget ["C:".toList]], [])).2.2.map Attempt.target =
      (Mkdir stringLib Model.scripted.traced "C:\\a/b\\c".toList
        ([5, 0, 183], [])).2.2.map Attempt.target ∧
    ∀ a ∈ (Mkdir stringLib Model.os.traced "C:/a\\b/c".toList
        ([fullTarget ["C:".toList]], [])).2.2, ∀ c ∈ a.target,
      isSeparator c = true → c = '\\' :=
  Mkdir_separator_blind stringLib Model.os Model.scripted "C:/a\\b/c".toList
    "C:\\a/b\\c".toList [fullTarget ["C:".toList]] [5, 0, 183] rfl
    (Tokenize_eq_of_map_toBackslash _ _ (by decide)) (Tokenize_separator_free _)

/-- C12: in every thread state, when disabling redirection succeeds the
constructor of `ScopedNativeFileSystem` returns a guard, and when reverting
with the saved value succeeds in the state `exit` the scope is left in
(whatever that state is), the destructor returns and the redirection value is
the one the thread had before the constructor ran. -/
theorem ScopedNativeFileSystem_restores {σ : Type} (os : Wow64 σ) (redirection : σ → PVOID)
    (hos : os.Lawful redirection) (before exit : σ)
    (hdisable : (os.Wow64DisableWow64FsRedirection before).1 = true)
    (hrevert : (os.Wow64RevertWow64FsRedirection
      (os.Wow64DisableWow64FsRedirection before).2.1 exit).1 = true) :
    ∃ guard inside, ScopedNativeFileSystem.construct os before = (.ok guard, inside) ∧
      ∃ after, ScopedNativeFileSystem.destruct os guard exit = (.ok (), after) ∧
        redirection after = redirection before := by
  refine ⟨⟨(os.Wow64DisableWow64FsRedirection before).2.1⟩,
    (os.Wow64DisableWow64FsRedirection before).2.2, ?_,
    (os.Wow64RevertWow64FsRedirection (os.Wow64DisableWow64FsRedirection before).2.1 exit).2,
    ?_, ?_⟩
  · simp [ScopedNativeFileSystem.construct, THROW_GLE_IF, hdisable]
  · simp only [ScopedNativeFileSystem.destruct, THROW_GLE_IF, hrevert]
    rfl
  · rw [hos.revert_restores _ exit hrevert]
    exact hos.disable_saves before hdisable

theorem ScopedNativeFileSystem_restores_witness :
    ∃ guard inside,
      ScopedNativeFileSystem.construct Model.wow64 ⟨0, true⟩ = (.ok guard, inside) ∧
      ∃ after, ScopedNativeFileSystem.destruct Model.wow64 guard ⟨7, true⟩ = (.ok (), after) ∧
        after.redirection = (⟨0, true⟩ : Model.Thread).redirection :=
  ScopedNativeFileSystem_restores Model.wow64 (fun s => s.redirection) Model.wow64_lawful
    ⟨0, true⟩ ⟨7, true⟩ rfl rfl

/-- C15: on a path that splits into the segments `dirs`, two or more, `Mkdir`
makes one directory-creation attempt for each segment after the first, in
order and whatever the operating system answers: attempt `k` (counted from 0)
has the target `fullTarget` of the first `k + 2` segments, which is the
extended-length prefix and these segments with a backslash after each. No
attempt has the target of the first segment alone, and the target of each
further level is the one before with the next segment and a backslash. -/
theorem Mkdir_attempts_every_level {σ : Type} (lib : StringLib) (os : Win32 σ)
    (path : wstring) (fs : σ) (hpath : path ≠ [])
    (hsegs : 2 ≤ (lib.Tokenize path separators).length) :
    (Mkdir lib os.traced path (fs, [])).2.2.map Attempt.target =
      (List.range ((lib.Tokenize path separators).length - 1)).map
        (fun k => fullTarget ((lib.Tokenize path separators).take (k + 2))) ∧
    (Mkdir lib os.traced path (fs, [])).2.2.length =
      (lib.Tokenize path separators).length - 1 ∧
    (∀ a ∈ (Mkdir lib os.traced path (fs, [])).2.2,
      a.target ≠ fullTarget ((lib.Tokenize path separators).take 1)) ∧
    (∀ k seg, (lib.Tokenize path separators)[k + 2]? = some seg →
      fullTarget ((lib.Tokenize path separators).take (k + 3)) =
        fullTarget ((lib.Tokenize path separators).take (k + 2)) ++ seg ++ ['\\']) := by
  have htargets := Mkdir_log_targets lib os path fs hpath hsegs
  refine ⟨htargets, ?_, ?_, ?_⟩
  · have := congrArg List.length htargets
    simpa using this
  · intro a ha heq
    have hmem : a.target ∈ (Mkdir lib os.traced path (fs, [])).2.2.map Attempt.target :=
      List.mem_map_of_mem _ ha
    rw [htargets] at hmem
    obtain ⟨k, _, hk⟩ := List.mem_map.mp hmem
    rw [heq] at hk
    obtain ⟨first, second, rest, htok⟩ := exists_two_segments _ hsegs
    rw [htok] at hk
    simp only [List.take_succ_cons, List.take_zero, fullTarget] at hk
    rw [appendSegments_cons, appendSegments_cons, appendSegments_cons, appendSegments_nil] at hk
    have hlen := congrArg List.length hk
    have hle := length_appendSegments_le
      (extendedPrefix ++ first ++ ['\\'] ++ second ++ ['\\']) (List.take k rest)
    simp only [List.length_append, List.length_singleton, List.length_cons,
      List.length_nil] at hlen hle
    omega
  · intro k seg hseg
    rw [List.take_succ, hseg, fullTarget, fullTarget]
    exact appendSegments_concat _ _ _

theorem Mkdir_attempts_every_level_witness :
    (Mkdir stringLib Model.scripted.traced "C:/a\\b".toList ([5, 183], [])).2.2.map
        Attempt.target =
      (List.range ((stringLib.Tokenize "C:/a\\b".toList separators).length - 1)).map
        (fun k => fullTarget ((stringLib.Tokenize "C:/a\\b".toList separators).take (k + 2))) ∧
    (Mkdir stringLib Model.scripted.traced "C:/a\\b".toList ([5, 183], [])).2.2.length =
      (stringLib.Tokenize "C:/a\\b".toList separators).length - 1 ∧
    (∀ a ∈ (Mkdir stringLib Model.scripted.traced "C:/a\\b".toList ([5, 183], [])).2.2,
      a.target ≠ fullTarget ((stringLib.Tokenize "C:/a\\b".toList separators).take 1)) ∧
    (∀ k seg, (stringLib.Tokenize "C:/a\\b".toList separators)[k + 2]? = some seg →
      fullTarget ((stringLib.Tokenize "C:/a\\b".toList separators).take (k + 3)) =
        fullTarget ((stringLib.Tokenize "C:/a\\b".toList separators).take (k + 2)) ++
          seg ++ ['\\']) :=
  Mkdir_attempts_every_level stringLib Model.scripted "C:/a\\b".toList [5, 183]
    (by decide) (by decide)

end fs

namespace ApplicationRunner

/-- C14: for every program path and argument string the command line is a
double quote, the path, a double quote, one space and the arguments as they
are: it has three characters more than path and arguments together, and what
follows its first `path.length + 3` characters is `args`. -/
theorem CreateCommandLine_quotes_path (path args : wstring) :
    CreateCommandLine path args = '"' :: (path ++ '"' :: ' ' :: args) ∧
    (CreateCommandLine path args).length = path.length + args.length + 3 ∧
    (CreateCommandLine path args).drop (path.length + 3) = args := by
  have h : CreateCommandLine path args = '"' :: (path ++ '"' :: ' ' :: args) := by
    simp [CreateCommandLine]
  refine ⟨h, ?_, ?_⟩
  · rw [h]
    simp only [List.length_cons, List.length_append]
    omega
  · rw [h, show path.length + 3 = (path.length + 2) + 1 from rfl, List.drop_succ_cons]
    rw [List.drop_append_eq_append_drop]
    simp

end ApplicationRunner

end common
